import Mathlib

/-!
# Primality predicate and bounded prime generator of `examples/advanced_cpp_examples.cpp`

Shallow embedding of `is_prime` and `first_n_primes`.

* Values of type `std::uint64_t` are natural numbers below `2 ^ 64`; every
  arithmetic result the source computes in that type is reduced modulo
  `2 ^ 64` here (`d * d`, `d += 2`, the `++` of the iota counter).
* A loop whose exit is not syntactically evident carries a fuel argument;
  its result is `none` when the fuel runs out (or when the source would have
  divided by zero).  The theorems below show that this never occurs.
* `out.reserve(N)` throws `std::length_error` when `N` exceeds
  `std::vector<std::uint64_t>::max_size()`; the call then ends without a
  vector.  Failure of the allocation itself for lack of memory
  (`std::bad_alloc`) is not modelled.
-/

namespace TradingGraph

/-- Number of values of `std::uint64_t`; unsigned arithmetic wraps modulo it. -/
def UINT64_MOD : Nat := 2 ^ 64

/-- The loop `for (std::uint64_t d = 3; d * d <= n; d += 2) { if (n % d == 0) return false; }
return true;` of `is_prime`, started at the current value of `d`.  The product
`d * d` and the increment `d += 2` are taken modulo `2 ^ 64`.  `fuel` bounds the
number of evaluations of the loop test; `n % d` with `d = 0` has no defined
result in the source and yields `none`. -/
def is_prime_loop (n : Nat) : Nat → Nat → Option Bool
  | 0, _ => none
  | fuel + 1, d =>
    if (d * d) % UINT64_MOD ≤ n then
      if d = 0 then none
      else if n % d = 0 then some false
      else is_prime_loop n fuel ((d + 2) % UINT64_MOD)
    else some true

/-- Body of `constexpr bool is_prime(std::uint64_t n)` with an explicit bound
`fuel` on the number of loop tests. -/
def is_prime_fuel (fuel n : Nat) : Option Bool :=
  if n < 2 then some false
  else if n % 2 = 0 then some (n == 2)
  else is_prime_loop n fuel 3

/-- The function `is_prime(n)`: the loop is given `n` tests, which are shown
below to be enough for every 64-bit `n`. -/
def is_prime (n : Nat) : Option Bool := is_prime_fuel n n

/-- The search `std::ranges::find_if(first, std::unreachable_sentinel, pred)` that
`filter_view` runs over `std::ranges::views::iota(std::uint64_t{2})` with the
predicate `[](std::uint64_t x) { return is_prime(x); }`: starting at the
counter value `x`, test the candidate and, when the predicate rejects it,
increment the counter (`++` of `std::uint64_t`, modulo `2 ^ 64`) and go on.  The
sentinel is unreachable, so only a hit ends the search.  The result is the
counter value found together with the candidates on which the predicate was
evaluated, in the order of evaluation. -/
def find_if : Nat → Nat → Option (Nat × List Nat)
  | 0, _ => none
  | fuel + 1, x =>
    match is_prime x with
    | none => none
    | some true => some (x, [x])
    | some false =>
      match find_if fuel ((x + 1) % UINT64_MOD) with
      | none => none
      | some (y, tested) => some (y, x :: tested)

/-- The statement `for (auto v : primes_view) out.push_back(v);` once the begin
iterator exists.  The iterator of `take_view` over a `filter_view` is a
`std::counted_iterator`: `length` is its remaining count and `current` the
counter value its filter iterator points at.  The loop ends when the count is
zero (the sentinel of `take_view` compares `count() == 0`); otherwise the
body appends `*it` to `out` and `++it` first advances the filter iterator
(`find_if` from the incremented counter) and then decrements the count.
`tested` accumulates the candidates given to the predicate. -/
def range_for : Nat → Nat → List Nat → List Nat → Option (List Nat × List Nat)
  | 0, _, out, tested => some (out, tested)
  | length + 1, current, out, tested =>
    match find_if UINT64_MOD ((current + 1) % UINT64_MOD) with
    | none => none
    | some (next, t) => range_for length next (out ++ [current]) (tested ++ t)

/-- The value of `std::vector<std::uint64_t>::max_size()`, a constant of the
standard library: `PTRDIFF_MAX / sizeof(std::uint64_t)` in libstdc++ on a
64-bit target. -/
def VECTOR_MAX_SIZE : Nat := 2 ^ 60 - 1

/-- The statements of `first_n_primes(N)` after `out.reserve(N)`, with the log
of predicate evaluations.  `primes_view.begin()` builds
`counted_iterator(filter.begin(), N)`, and `filter_view::begin()` searches the
first hit from the start of the iota, `std::uint64_t{2}`; then the range-for
loop runs.  The count `N` is converted to the difference type of the view,
which is wider than 64 bits, so it is kept as it is. -/
def first_n_primes_fill (N : Nat) : Option (List Nat × List Nat) :=
  match find_if UINT64_MOD 2 with
  | none => none
  | some (first, t) => range_for N first [] t

/-- The function `first_n_primes(N)` with the log of predicate evaluations.
Building `primes_view` evaluates nothing.  `out.reserve(N)` throws
`std::length_error` when `N > max_size()`: the call ends there, before any
candidate is tested, and the first component is `none`.  Otherwise the
statements of `first_n_primes_fill` run and the first component is the
vector returned.  The outer `none` means that a search ran out of fuel. -/
def first_n_primes_run (N : Nat) : Option (Option (List Nat) × List Nat) :=
  if VECTOR_MAX_SIZE < N then some (none, [])
  else
    match first_n_primes_fill N with
    | none => none
    | some (out, tested) => some (some out, tested)

/-- The vector returned by `first_n_primes(N)`; `none` when no vector is
returned. -/
def first_n_primes (N : Nat) : Option (List Nat) :=
  match first_n_primes_run N with
  | some (some out, _) => some out
  | _ => none

/-- The candidates on which `first_n_primes(N)` evaluates `is_prime`, in
order of evaluation. -/
def first_n_primes_tested (N : Nat) : Option (List Nat) :=
  (first_n_primes_run N).map Prod.snd

/-- The loop of `is_prime` with a record of what it evaluates: besides the
result of `is_prime_loop`, the values of `d` at which the loop test
`d * d <= n` is evaluated (second component, in order) and the values of `d` at
which the division `n % d` is evaluated (third component, in order). -/
def is_prime_loop_trace (n : Nat) : Nat → Nat → Option Bool × List Nat × List Nat
  | 0, _ => (none, [], [])
  | fuel + 1, d =>
    if (d * d) % UINT64_MOD ≤ n then
      if d = 0 then (none, [d], [d])
      else if n % d = 0 then (some false, [d], [d])
      else
        ((is_prime_loop_trace n fuel ((d + 2) % UINT64_MOD)).1,
          d :: (is_prime_loop_trace n fuel ((d + 2) % UINT64_MOD)).2.1,
          d :: (is_prime_loop_trace n fuel ((d + 2) % UINT64_MOD)).2.2)
    else (some true, [d], [])

/-- The function `is_prime(n)` with the record of its loop: the two early
returns evaluate neither the loop test nor `n % d`. -/
def is_prime_trace (n : Nat) : Option Bool × List Nat × List Nat :=
  if n < 2 then (some false, [], [])
  else if n % 2 = 0 then (some (n == 2), [], [])
  else is_prime_loop_trace n n 3

/-- The loop of `is_prime` carried out over unbounded natural numbers: the
same statements, with `d * d` and `d += 2` computed exactly instead of
modulo `2 ^ 64`; the record is that of `is_prime_loop_trace`. -/
def is_prime_loop_trace_unbounded (n : Nat) : Nat → Nat → Option Bool × List Nat × List Nat
  | 0, _ => (none, [], [])
  | fuel + 1, d =>
    if d * d ≤ n then
      if d = 0 then (none, [d], [d])
      else if n % d = 0 then (some false, [d], [d])
      else
        ((is_prime_loop_trace_unbounded n fuel (d + 2)).1,
          d :: (is_prime_loop_trace_unbounded n fuel (d + 2)).2.1,
          d :: (is_prime_loop_trace_unbounded n fuel (d + 2)).2.2)
    else (some true, [d], [])

/-- The trial division of `is_prime` carried out over unbounded natural
numbers, with its record. -/
def is_prime_trace_unbounded (n : Nat) : Option Bool × List Nat × List Nat :=
  if n < 2 then (some false, [], [])
  else if n % 2 = 0 then (some (n == 2), [], [])
  else is_prime_loop_trace_unbounded n n 3

/-! ## The loop of `is_prime` -/

/-- More fuel does not change a result already obtained. -/
theorem is_prime_loop_mono (n : Nat) :
    ∀ (fuel fuel2 d : Nat) (b : Bool), fuel ≤ fuel2 →
      is_prime_loop n fuel d = some b → is_prime_loop n fuel2 d = some b := by
  intro fuel
  induction fuel with
  | zero => intro fuel2 d b _ h; simp [is_prime_loop] at h
  | succ f ih =>
    intro fuel2 d b hle h
    obtain ⟨g, rfl⟩ : ∃ g, fuel2 = g + 1 := ⟨fuel2 - 1, by omega⟩
    simp only [is_prime_loop] at h ⊢
    split_ifs at h ⊢ with h1 h2 h3
    · exact h
    · exact ih g _ b (by omega) h
    · exact h

/-- An odd divisor `p` of `n` with `p * p ≤ n` makes the loop answer `false`:
no product `d * d` with `d ≤ p` wraps, so the loop cannot leave before `p`. -/
theorem is_prime_loop_false (n p : Nat) (hn : n < 2 ^ 64) (hpn : p ∣ n) (hpp : p * p ≤ n) :
    ∀ (k d fuel : Nat), 0 < d → d + 2 * k = p → k < fuel →
      is_prime_loop n fuel d = some false := by
  intro k
  induction k with
  | zero =>
    intro d fuel hd hdp hf
    obtain ⟨g, rfl⟩ : ∃ g, fuel = g + 1 := ⟨fuel - 1, by omega⟩
    have hdp2 : d = p := by omega
    subst hdp2
    have h1 : (d * d) % UINT64_MOD ≤ n := le_trans (Nat.mod_le _ _) hpp
    have h2 : n % d = 0 := Nat.mod_eq_zero_of_dvd hpn
    simp [is_prime_loop, h1, h2, Nat.pos_iff_ne_zero.mp hd]
  | succ k ih =>
    intro d fuel hd hdp hf
    obtain ⟨g, rfl⟩ : ∃ g, fuel = g + 1 := ⟨fuel - 1, by omega⟩
    have hle : d ≤ p := by omega
    have h1 : (d * d) % UINT64_MOD ≤ n :=
      le_trans (Nat.mod_le _ _) (le_trans (Nat.mul_le_mul hle hle) hpp)
    have hp64 : p < 2 ^ 64 := by nlinarith
    have hmod : (d + 2) % UINT64_MOD = d + 2 := Nat.mod_eq_of_lt (by unfold UINT64_MOD; omega)
    simp only [is_prime_loop, h1, if_true, Nat.pos_iff_ne_zero.mp hd, if_false, hmod]
    split_ifs with h3
    · rfl
    · exact ih (d + 2) g (by omega) (by omega) (by omega)

/-- When the wrapped square of `e` exceeds `n` and no candidate below `e`
divides `n`, the loop answers `true` (at `e` or at an earlier exit). -/
theorem is_prime_loop_true (n e : Nat) (he64 : e < 2 ^ 64) (he : n < (e * e) % UINT64_MOD)
    (hnd : ∀ d, 1 < d → d < e → n % d ≠ 0) :
    ∀ (k d fuel : Nat), 1 < d → d + 2 * k = e → k < fuel →
      is_prime_loop n fuel d = some true := by
  intro k
  induction k with
  | zero =>
    intro d fuel hd hdp hf
    obtain ⟨g, rfl⟩ : ∃ g, fuel = g + 1 := ⟨fuel - 1, by omega⟩
    have hdp2 : d = e := by omega
    subst hdp2
    simp [is_prime_loop, Nat.not_le.mpr he]
  | succ k ih =>
    intro d fuel hd hdp hf
    obtain ⟨g, rfl⟩ : ∃ g, fuel = g + 1 := ⟨fuel - 1, by omega⟩
    have hmod : (d + 2) % UINT64_MOD = d + 2 := Nat.mod_eq_of_lt (by unfold UINT64_MOD; omega)
    have h3 : n % d ≠ 0 := hnd d hd (by omega)
    have hd0 : d ≠ 0 := by omega
    simp only [is_prime_loop, hd0, h3, if_false, hmod]
    split_ifs with h1
    · exact ih (d + 2) g (by omega) (by omega) (by omega)
    · rfl

/-- Started at a candidate `d ≤ n` of the parity of `n`, the loop returns
within `(n - d) / 2 + 1` tests: at the latest `d = n` divides `n`. -/
theorem is_prime_loop_total (n : Nat) (hn : n < 2 ^ 64) :
    ∀ (k d fuel : Nat), 0 < d → d + 2 * k = n → k < fuel →
      ∃ b, is_prime_loop n fuel d = some b := by
  intro k
  induction k with
  | zero =>
    intro d fuel hd hdp hf
    obtain ⟨g, rfl⟩ : ∃ g, fuel = g + 1 := ⟨fuel - 1, by omega⟩
    have hdp2 : d = n := by omega
    subst hdp2
    have hd0 : d ≠ 0 := by omega
    simp only [is_prime_loop, hd0, Nat.mod_self, if_true, if_false]
    split_ifs
    · exact ⟨false, rfl⟩
    · exact ⟨true, rfl⟩
  | succ k ih =>
    intro d fuel hd hdp hf
    obtain ⟨g, rfl⟩ : ∃ g, fuel = g + 1 := ⟨fuel - 1, by omega⟩
    have hmod : (d + 2) % UINT64_MOD = d + 2 := Nat.mod_eq_of_lt (by unfold UINT64_MOD; omega)
    have hd0 : d ≠ 0 := by omega
    simp only [is_prime_loop, hd0, if_false, hmod]
    split_ifs
    · exact ⟨false, rfl⟩
    · exact ih (d + 2) g (by omega) (by omega) (by omega)
    · exact ⟨true, rfl⟩

/-! ## Correctness of `is_prime` on the 64-bit range -/

/-- The odd candidate `1852311383259529397` has the wrapped square
`2 ^ 64 - 7`, the largest value the square of an odd number takes modulo
`2 ^ 64`. -/
theorem wrap_exit_sq :
    (1852311383259529397 * 1852311383259529397) % UINT64_MOD = 2 ^ 64 - 7 := by
  unfold UINT64_MOD; norm_num

/-- No prime lies in the last seven values of `std::uint64_t`. -/
theorem prime_lt_wrap (n : Nat) (hn : n < 2 ^ 64) (hp : Nat.Prime n) : n < 2 ^ 64 - 7 := by
  by_contra hge
  have h2 : n % 2 = 1 := by
    rcases hp.eq_two_or_odd with h | h
    · omega
    · exact h
  have hcases : n = 2 ^ 64 - 7 ∨ n = 2 ^ 64 - 5 ∨ n = 2 ^ 64 - 3 ∨ n = 2 ^ 64 - 1 := by omega
  rcases hcases with h | h | h | h <;> subst h <;> norm_num at hp

/-- For odd `n ≥ 3` below `(2 ^ 32 - 1) ^ 2` there is an odd `e ≤ n` with
`n < e * e < 2 ^ 64`. -/
theorem exists_exit_small (n : Nat) (h3 : 3 ≤ n) (hn : n < (2 ^ 32 - 1) ^ 2) :
    ∃ e, e % 2 = 1 ∧ 3 ≤ e ∧ e ≤ n ∧ n < e * e ∧ e * e < 2 ^ 64 := by
  have hs1 : Nat.sqrt n * Nat.sqrt n ≤ n := Nat.sqrt_le n
  have hs2 : n < (Nat.sqrt n + 1) * (Nat.sqrt n + 1) := Nat.lt_succ_sqrt n
  have hs3 : Nat.sqrt n < 2 ^ 32 - 1 := by
    by_contra hc
    have : (2 ^ 32 - 1) * (2 ^ 32 - 1) ≤ Nat.sqrt n * Nat.sqrt n :=
      Nat.mul_le_mul (Nat.le_of_not_lt hc) (Nat.le_of_not_lt hc)
    norm_num at this hn
    omega
  have hs4 : 1 ≤ Nat.sqrt n := by
    by_contra hc
    have h0 : Nat.sqrt n = 0 := by omega
    rw [h0] at hs2
    omega
  have hs5 : Nat.sqrt n + 2 ≤ n := by
    rcases Nat.lt_or_ge (Nat.sqrt n) 2 with h | h
    · omega
    · nlinarith
  rcases Nat.even_or_odd (Nat.sqrt n) with hev | hod
  · refine ⟨Nat.sqrt n + 1, ?_, ?_, by omega, hs2, ?_⟩
    · have := Nat.even_iff.mp hev; omega
    · have := Nat.even_iff.mp hev; omega
    · have : Nat.sqrt n + 1 ≤ 2 ^ 32 - 1 := by omega
      calc (Nat.sqrt n + 1) * (Nat.sqrt n + 1) ≤ (2 ^ 32 - 1) * (2 ^ 32 - 1) :=
            Nat.mul_le_mul this this
        _ < 2 ^ 64 := by norm_num
  · have hodd := Nat.odd_iff.mp hod
    have hle : Nat.sqrt n + 2 ≤ 2 ^ 32 - 1 := by omega
    refine ⟨Nat.sqrt n + 2, by omega, by omega, hs5, by nlinarith, ?_⟩
    calc (Nat.sqrt n + 2) * (Nat.sqrt n + 2) ≤ (2 ^ 32 - 1) * (2 ^ 32 - 1) :=
          Nat.mul_le_mul hle hle
      _ < 2 ^ 64 := by norm_num

/-- Every 64-bit prime has an odd candidate `e ≤ n` at which the wrapped loop
test `d * d <= n` fails. -/
theorem exists_exit (n : Nat) (hn : n < 2 ^ 64) (hp : Nat.Prime n) (hodd : n % 2 = 1) :
    ∃ e, e % 2 = 1 ∧ 3 ≤ e ∧ e ≤ n ∧ e < 2 ^ 64 ∧ n < (e * e) % UINT64_MOD := by
  have h2 := hp.two_le
  rcases Nat.lt_or_ge n ((2 ^ 32 - 1) ^ 2) with hsmall | hbig
  · obtain ⟨e, h1, h3, hle, hlt, h64⟩ := exists_exit_small n (by omega) hsmall
    refine ⟨e, h1, h3, hle, by omega, ?_⟩
    rw [Nat.mod_eq_of_lt (by unfold UINT64_MOD; exact h64)]
    exact hlt
  · refine ⟨1852311383259529397, by norm_num, by norm_num, ?_, by norm_num, ?_⟩
    · norm_num at hbig; omega
    · rw [wrap_exit_sq]; exact prime_lt_wrap n hn hp

/-- Completeness of the code on the whole 64-bit range. -/
theorem is_prime_fuel_of_prime (n fuel : Nat) (hn : n < 2 ^ 64) (hf : n ≤ fuel)
    (hp : Nat.Prime n) : is_prime_fuel fuel n = some true := by
  have h2 := hp.two_le
  rcases hp.eq_two_or_odd with h | hodd
  · subst h; simp [is_prime_fuel]
  · obtain ⟨e, he1, he3, hen, he64, hex⟩ := exists_exit n hn hp hodd
    have hloop := is_prime_loop_true n e he64 hex
      (fun d hd1 hde hmod => by
        have hdvd : d ∣ n := Nat.dvd_of_mod_eq_zero hmod
        rcases (Nat.dvd_prime hp).mp hdvd with h | h <;> omega)
      ((e - 3) / 2) 3 fuel (by omega) (by omega) (by omega)
    have hn2 : ¬ n < 2 := by omega
    have hn3 : ¬ n % 2 = 0 := by omega
    simp only [is_prime_fuel, hn2, hn3, if_false]
    exact hloop

/-- Soundness of the code on the whole 64-bit range. -/
theorem is_prime_fuel_of_not_prime (n fuel : Nat) (hn : n < 2 ^ 64) (hf : n ≤ fuel)
    (hp : ¬ Nat.Prime n) : is_prime_fuel fuel n = some false := by
  unfold is_prime_fuel
  split_ifs with h1 h2
  · rfl
  · have : n ≠ 2 := fun h => hp (h ▸ Nat.prime_two)
    simp [this]
  · have hpos : 0 < n := by omega
    have hmf : n.minFac ∣ n := Nat.minFac_dvd n
    have hsq : n.minFac * n.minFac ≤ n := by
      have := Nat.minFac_sq_le_self hpos hp
      nlinarith
    have hmp : Nat.Prime n.minFac := Nat.minFac_prime (by omega)
    have hm2 : n.minFac ≠ 2 := by
      intro h
      rw [h] at hmf
      omega
    have hmodd : n.minFac % 2 = 1 := by
      rcases hmp.eq_two_or_odd with h | h
      · exact absurd h hm2
      · exact h
    have hm3 : 3 ≤ n.minFac := by have := hmp.two_le; omega
    have hmle : n.minFac ≤ n := Nat.minFac_le hpos
    exact is_prime_loop_false n n.minFac hn hmf hsq ((n.minFac - 3) / 2) 3 fuel
      (by omega) (by omega) (by omega)

/-- On 64-bit inputs the code decides primality. -/
theorem is_prime_eq (n : Nat) (hn : n < 2 ^ 64) : is_prime n = some (decide (Nat.Prime n)) := by
  unfold is_prime
  by_cases hp : Nat.Prime n
  · simp [hp, is_prime_fuel_of_prime n n hn le_rfl hp]
  · simp [hp, is_prime_fuel_of_not_prime n n hn le_rfl hp]

/-! ## The search of the filter view -/

/-- A prime candidate ends the search at once. -/
theorem find_if_hit (fuel x : Nat) (hx : x < 2 ^ 64) (hp : Nat.Prime x) :
    find_if (fuel + 1) x = some (x, [x]) := by
  simp [find_if, is_prime_eq x hx, hp]

/-- A run of `k` non-prime candidates below `2 ^ 64` is tested one by one and
skipped. -/
theorem find_if_skip :
    ∀ (k x fuel : Nat), x < 2 ^ 64 → x + k ≤ 2 ^ 64 →
      (∀ y, x ≤ y → y < x + k → ¬ Nat.Prime y) →
      find_if (fuel + k) x =
        (find_if fuel ((x + k) % UINT64_MOD)).map (fun r => (r.1, List.range' x k ++ r.2)) := by
  intro k
  induction k with
  | zero =>
    intro x fuel hx0 _ _
    have hxm : (x + 0) % UINT64_MOD = x := Nat.mod_eq_of_lt (by unfold UINT64_MOD; exact hx0)
    rw [hxm]
    cases h : find_if fuel x <;> simp [h]
  | succ k ih =>
    intro x fuel hx64 hx hnp
    have hxnp : ¬ Nat.Prime x := hnp x le_rfl (by omega)
    have hstep : ((x + 1) % UINT64_MOD = x + 1 ∧ x + 1 < 2 ^ 64) ∨ (k = 0 ∧ x + 1 = 2 ^ 64) := by
      rcases Nat.lt_or_ge (x + 1) (2 ^ 64) with h | h
      · exact Or.inl ⟨Nat.mod_eq_of_lt (by unfold UINT64_MOD; exact h), h⟩
      · exact Or.inr ⟨by omega, by omega⟩
    have hfuel : fuel + (k + 1) = (fuel + k) + 1 := by omega
    rw [hfuel]
    simp only [find_if, is_prime_eq x hx64, hxnp, decide_False]
    rcases hstep with ⟨hmod, hlt⟩ | ⟨hk, hx1⟩
    · rw [hmod, ih (x + 1) fuel hlt (by omega) (fun y h1 h2 => hnp y (by omega) (by omega))]
      have hadd : x + 1 + k = x + (k + 1) := by omega
      rw [hadd]
      cases h : find_if fuel ((x + (k + 1)) % UINT64_MOD) with
      | none => simp
      | some r => simp [List.range'_succ]
    · subst hk
      cases h : find_if fuel ((x + 1) % UINT64_MOD) with
      | none => simp [h]
      | some r => simp [h]

/-- Without wrap-around the search stops at the next prime `q` and tests exactly
the candidates `x, x + 1, ..., q`. -/
theorem find_if_exact (x q fuel : Nat) (hxq : x ≤ q) (hq : q < 2 ^ 64) (hp : Nat.Prime q)
    (hnp : ∀ y, x ≤ y → y < q → ¬ Nat.Prime y) (hf : q - x < fuel) :
    find_if fuel x = some (q, List.range' x (q - x + 1)) := by
  obtain ⟨g, hg⟩ : ∃ g, fuel = (g + 1) + (q - x) := ⟨fuel - (q - x) - 1, by omega⟩
  have hxq2 : x + (q - x) = q := by omega
  rw [hg, find_if_skip (q - x) x (g + 1) (by omega) (by omega) (fun y h1 h2 => hnp y h1 (by omega)),
    hxq2, Nat.mod_eq_of_lt (by unfold UINT64_MOD; exact hq), find_if_hit g q hq hp]
  simp [List.range'_concat]
  omega

/-- When no prime is left below `2 ^ 64` the counter wraps to `0` and the
search ends at `2`. -/
theorem find_if_wrap (x : Nat) (h3 : 3 ≤ x) (hx : x < 2 ^ 64)
    (hnp : ∀ y, x ≤ y → y < 2 ^ 64 → ¬ Nat.Prime y) :
    find_if UINT64_MOD x = some (2, List.range' x (2 ^ 64 - x) ++ [0, 1, 2]) := by
  obtain ⟨g, hg⟩ : ∃ g, UINT64_MOD = (g + 3) + (2 ^ 64 - x) :=
    ⟨x - 3, by unfold UINT64_MOD; omega⟩
  have hx2 : x + (2 ^ 64 - x) = 2 ^ 64 := by omega
  have h0 : (2 ^ 64) % UINT64_MOD = 0 := by unfold UINT64_MOD; norm_num
  have hz : find_if (g + 3) 0 = some (2, [0, 1, 2]) := by
    have e0 : is_prime 0 = some false := by decide
    have e1 : is_prime 1 = some false := by decide
    have e2 : is_prime 2 = some true := by decide
    have m1 : (0 + 1) % UINT64_MOD = 1 := by decide
    have m2 : (1 + 1) % UINT64_MOD = 2 := by decide
    simp [find_if, e0, e1, e2, m1, m2]
  rw [hg, find_if_skip (2 ^ 64 - x) x (g + 3) hx (by omega) (fun y h1 h2 => hnp y h1 (by omega)),
    hx2, h0, hz]
  simp

/-- The search always ends, at a prime below `2 ^ 64`, and tests only 64-bit
values. -/
theorem find_if_total (x : Nat) (hx : x < 2 ^ 64) :
    ∃ q t, find_if UINT64_MOD x = some (q, t) ∧ Nat.Prime q ∧ q < 2 ^ 64 ∧
      ∀ c ∈ t, c < 2 ^ 64 := by
  by_cases hex : ∃ q, x ≤ q ∧ q < 2 ^ 64 ∧ Nat.Prime q
  · classical
    have hspec := Nat.find_spec hex
    have hmin := fun m => @Nat.find_min _ _ hex m
    refine ⟨Nat.find hex, _, find_if_exact x (Nat.find hex) UINT64_MOD hspec.1 hspec.2.1
      hspec.2.2 (fun y h1 h2 hy => hmin y h2 ⟨h1, by omega, hy⟩) (by unfold UINT64_MOD; omega),
      hspec.2.2, hspec.2.1, ?_⟩
    intro c hc
    rw [List.mem_range'_1] at hc
    omega
  · have h3 : 3 ≤ x := by
      by_contra hlt
      exact hex ⟨2, by omega, by norm_num, Nat.prime_two⟩
    refine ⟨2, _, find_if_wrap x h3 hx (fun y h1 h2 hy => hex ⟨y, h1, h2, hy⟩),
      Nat.prime_two, by norm_num, ?_⟩
    intro c hc
    rw [List.mem_append, List.mem_range'_1] at hc
    rcases hc with h | h
    · omega
    · simp at h; omega

/-! ## The range-for loop over the pipeline -/

/-- From the `i`-th prime the filter iterator advances to the next prime while
that one is below `2 ^ 64`, testing every candidate in between. -/
theorem find_if_nth (i : Nat) (h : Nat.nth Nat.Prime (i + 1) < 2 ^ 64) :
    find_if UINT64_MOD ((Nat.nth Nat.Prime i + 1) % UINT64_MOD) =
      some (Nat.nth Nat.Prime (i + 1),
        List.range' (Nat.nth Nat.Prime i + 1) (Nat.nth Nat.Prime (i + 1) - Nat.nth Nat.Prime i)) := by
  have hlt : Nat.nth Nat.Prime i < Nat.nth Nat.Prime (i + 1) :=
    (Nat.nth_lt_nth Nat.infinite_setOf_prime).mpr (Nat.lt_succ_self i)
  rw [Nat.mod_eq_of_lt (by unfold UINT64_MOD; omega)]
  have hex := find_if_exact (Nat.nth Nat.Prime i + 1) (Nat.nth Nat.Prime (i + 1)) UINT64_MOD
    (by omega) h (Nat.prime_nth_prime (i + 1))
    (fun y h1 h2 hy => by
      have := Nat.le_nth_of_lt_nth_succ h2 hy
      omega)
    (by unfold UINT64_MOD; omega)
  rw [hex]
  have : Nat.nth Nat.Prime (i + 1) - (Nat.nth Nat.Prime i + 1) + 1 =
      Nat.nth Nat.Prime (i + 1) - Nat.nth Nat.Prime i := by omega
  rw [this]

/-- The loop always completes: it appends exactly `length` values, each a prime
below `2 ^ 64`, and gives the predicate 64-bit candidates only. -/
theorem range_for_total :
    ∀ (len cur : Nat) (out tested : List Nat), cur < 2 ^ 64 → Nat.Prime cur →
      ∃ o t, range_for len cur out tested = some (o, t) ∧ o.length = out.length + len ∧
        (∀ v ∈ o, v ∈ out ∨ (Nat.Prime v ∧ v < 2 ^ 64)) ∧
        (∀ c ∈ t, c ∈ tested ∨ c < 2 ^ 64) := by
  intro len
  induction len with
  | zero =>
    intro cur out tested _ _
    exact ⟨out, tested, rfl, rfl, fun v hv => Or.inl hv, fun c hc => Or.inl hc⟩
  | succ len ih =>
    intro cur out tested hcur hp
    obtain ⟨q, t, hf, hq, hq64, ht⟩ :=
      find_if_total ((cur + 1) % UINT64_MOD) (Nat.mod_lt _ (by unfold UINT64_MOD; norm_num))
    obtain ⟨o, t2, hr, hlen, ho, ht2⟩ := ih q (out ++ [cur]) (tested ++ t) hq64 hq
    refine ⟨o, t2, ?_, ?_, ?_, ?_⟩
    · simp only [range_for, hf]; exact hr
    · rw [hlen]; simp; omega
    · intro v hv
      rcases ho v hv with h | h
      · rcases List.mem_append.mp h with h1 | h1
        · exact Or.inl h1
        · simp at h1; subst h1; exact Or.inr ⟨hp, hcur⟩
      · exact Or.inr h
    · intro c hc
      rcases ht2 c hc with h | h
      · rcases List.mem_append.mp h with h1 | h1
        · exact Or.inl h1
        · exact Or.inr (ht c h1)
      · exact Or.inr h

/-- While the primes asked for are below `2 ^ 64` the loop appends them in
order. -/
theorem range_for_exact :
    ∀ (len i cur : Nat) (out tested : List Nat), cur < 2 ^ 64 → Nat.Prime cur →
      (0 < len → cur = Nat.nth Nat.Prime i) →
      (∀ j, j < i + len → Nat.nth Nat.Prime j < 2 ^ 64) →
      ∃ t, range_for len cur out tested =
        some (out ++ (List.range' i len).map (Nat.nth Nat.Prime), t) := by
  intro len
  induction len with
  | zero =>
    intro i cur out tested _ _ _ _
    exact ⟨tested, by simp [range_for]⟩
  | succ len ih =>
    intro i cur out tested hcur hp hci hall
    have hc : cur = Nat.nth Nat.Prime i := hci (Nat.succ_pos len)
    obtain ⟨q, t, hf, hq, hq64, _⟩ :=
      find_if_total ((cur + 1) % UINT64_MOD) (Nat.mod_lt _ (by unfold UINT64_MOD; norm_num))
    have hnext : 0 < len → q = Nat.nth Nat.Prime (i + 1) := by
      intro hl
      have h := find_if_nth i (hall (i + 1) (by omega))
      rw [← hc, hf] at h
      simp only [Option.some.injEq, Prod.mk.injEq] at h
      exact h.1
    obtain ⟨t2, hr⟩ := ih (i + 1) q (out ++ [cur]) (tested ++ t) hq64 hq hnext
      (fun j hj => hall j (by omega))
    refine ⟨t2, ?_⟩
    simp only [range_for, hf]
    rw [hr, hc]
    simp [List.range'_succ]

/-- While the prime after the last one asked for is below `2 ^ 64`, no
candidate beyond it is tested. -/
theorem range_for_tested_le :
    ∀ (len i : Nat) (out tested : List Nat), Nat.nth Nat.Prime (i + len) < 2 ^ 64 →
      ∃ o t, range_for len (Nat.nth Nat.Prime i) out tested = some (o, t) ∧
        ∀ c ∈ t, c ∈ tested ∨ c ≤ Nat.nth Nat.Prime (i + len) := by
  intro len
  induction len with
  | zero =>
    intro i out tested _
    exact ⟨out, tested, rfl, fun c hc => Or.inl hc⟩
  | succ len ih =>
    intro i out tested hlt
    have hmono : Nat.nth Nat.Prime (i + 1) ≤ Nat.nth Nat.Prime (i + (len + 1)) :=
      (Nat.nth_le_nth Nat.infinite_setOf_prime).mpr (by omega)
    have hf := find_if_nth i (by omega)
    have hi : i + 1 + len = i + (len + 1) := by omega
    obtain ⟨o, t2, hr, ht2⟩ := ih (i + 1) (out ++ [Nat.nth Nat.Prime i])
      (tested ++ List.range' (Nat.nth Nat.Prime i + 1)
        (Nat.nth Nat.Prime (i + 1) - Nat.nth Nat.Prime i)) (by rw [hi]; exact hlt)
    refine ⟨o, t2, ?_, ?_⟩
    · simp only [range_for, hf]; exact hr
    · intro c hc
      rw [hi] at ht2
      rcases ht2 c hc with h | h
      · rcases List.mem_append.mp h with h1 | h1
        · exact Or.inl h1
        · rw [List.mem_range'_1] at h1
          exact Or.inr (by omega)
      · exact Or.inr h

/-- The begin iterator of the pipeline: the first search starts at `2` and
stops there. -/
theorem find_if_begin : find_if UINT64_MOD 2 = some (2, [2]) := by decide

/-! ## `first_n_primes` -/

/-- After `reserve` the statements always complete: `N` values, all primes
below `2 ^ 64`, after testing 64-bit candidates only. -/
theorem first_n_primes_fill_total (N : Nat) :
    ∃ o t, first_n_primes_fill N = some (o, t) ∧ o.length = N ∧
      (∀ v ∈ o, Nat.Prime v ∧ v < 2 ^ 64) ∧ (∀ c ∈ t, c < 2 ^ 64) := by
  obtain ⟨o, t, hr, hlen, ho, ht⟩ :=
    range_for_total N 2 [] [2] (by norm_num) Nat.prime_two
  refine ⟨o, t, ?_, by simpa using hlen, ?_, ?_⟩
  · simp only [first_n_primes_fill, find_if_begin]; exact hr
  · intro v hv
    rcases ho v hv with h | h
    · simp at h
    · exact h
  · intro c hc
    rcases ht c hc with h | h
    · simp at h; subst h; norm_num
    · exact h

/-- When `reserve` accepts `N`, the call returns the vector filled by the
loop. -/
theorem first_n_primes_of_le (N : Nat) (h : N ≤ VECTOR_MAX_SIZE) (o t : List Nat)
    (hf : first_n_primes_fill N = some (o, t)) :
    first_n_primes N = some o ∧ first_n_primes_tested N = some t := by
  have hN : ¬ VECTOR_MAX_SIZE < N := Nat.not_lt.mpr h
  simp [first_n_primes, first_n_primes_tested, first_n_primes_run, hN, hf]

/-- When `N` exceeds `max_size()`, `reserve` throws: no vector is returned and
no candidate is tested. -/
theorem first_n_primes_of_gt (N : Nat) (h : VECTOR_MAX_SIZE < N) :
    first_n_primes_run N = some (none, []) ∧ first_n_primes N = none ∧
      first_n_primes_tested N = some [] := by
  simp [first_n_primes, first_n_primes_tested, first_n_primes_run, h]

/-- The primes from `2 ^ a` up to `n` are few: their product divides the
primorial of `n`, which is at most `4 ^ n`. -/
theorem primes_from_pow_card (a n : Nat) :
    a * (Finset.filter Nat.Prime (Finset.Ico (2 ^ a) n)).card ≤ 2 * n := by
  have h1 : (2 ^ a) ^ (Finset.filter Nat.Prime (Finset.Ico (2 ^ a) n)).card ≤
      (Finset.filter Nat.Prime (Finset.Ico (2 ^ a) n)).prod (fun p => p) :=
    Finset.pow_card_le_prod _ _ _ (fun p hp => by
      rw [Finset.mem_filter, Finset.mem_Ico] at hp
      exact hp.1.1)
  have h2 : (Finset.filter Nat.Prime (Finset.Ico (2 ^ a) n)).prod (fun p => p) ≤
      primorial n := by
    unfold primorial
    refine Finset.prod_le_prod_of_subset_of_one_le' ?_ ?_
    · intro p hp
      rw [Finset.mem_filter, Finset.mem_Ico] at hp
      rw [Finset.mem_filter, Finset.mem_range]
      exact ⟨by omega, hp.2⟩
    · intro p hp _
      rw [Finset.mem_filter] at hp
      exact hp.2.one_lt.le
  have h3 := primorial_le_4_pow n
  have h4 : (2 : Nat) ^ (a * (Finset.filter Nat.Prime (Finset.Ico (2 ^ a) n)).card) ≤
      2 ^ (2 * n) := by
    rw [pow_mul, pow_mul]
    calc (2 ^ a) ^ (Finset.filter Nat.Prime (Finset.Ico (2 ^ a) n)).card
        ≤ primorial n := h1.trans h2
      _ ≤ 4 ^ n := h3
      _ = (2 ^ 2) ^ n := by norm_num
  exact (Nat.pow_le_pow_iff_right (by norm_num)).mp h4

/-- The primes below `n` are those below `2 ^ a` and those from `2 ^ a` on. -/
theorem count_prime_le (a n : Nat) :
    Nat.count Nat.Prime n ≤
      2 ^ a + (Finset.filter Nat.Prime (Finset.Ico (2 ^ a) n)).card := by
  rw [Nat.count_eq_card_filter_range]
  have hsub : Finset.filter Nat.Prime (Finset.range n) ⊆
      Finset.range (2 ^ a) ∪ Finset.filter Nat.Prime (Finset.Ico (2 ^ a) n) := by
    intro p hp
    rw [Finset.mem_filter, Finset.mem_range] at hp
    rw [Finset.mem_union, Finset.mem_range, Finset.mem_filter, Finset.mem_Ico]
    rcases Nat.lt_or_ge p (2 ^ a) with h | h
    · exact Or.inl h
    · exact Or.inr ⟨⟨h, hp.1⟩, hp.2⟩
  calc (Finset.filter Nat.Prime (Finset.range n)).card
      ≤ (Finset.range (2 ^ a) ∪ Finset.filter Nat.Prime (Finset.Ico (2 ^ a) n)).card :=
        Finset.card_le_card hsub
    _ ≤ (Finset.range (2 ^ a)).card +
          (Finset.filter Nat.Prime (Finset.Ico (2 ^ a) n)).card :=
        Finset.card_union_le _ _
    _ = 2 ^ a + (Finset.filter Nat.Prime (Finset.Ico (2 ^ a) n)).card := by
        rw [Finset.card_range]

/-- There are fewer than `2 ^ 60 - 1` primes below `2 ^ 64`: a vector holding
each of them once is within `max_size()`. -/
theorem count_prime_uint64 : Nat.count Nat.Prime (2 ^ 64) < 2 ^ 60 - 1 := by
  have h1 := primes_from_pow_card 48 (2 ^ 64)
  have h2 := count_prime_le 48 (2 ^ 64)
  generalize (Finset.filter Nat.Prime (Finset.Ico (2 ^ 48) (2 ^ 64))).card = c at h1 h2
  generalize Nat.count Nat.Prime (2 ^ 64) = k at h2 ⊢
  norm_num at h1 h2 ⊢
  omega

/-- A count `N` whose `N` smallest primes are all below `2 ^ 64` is accepted by
`reserve`. -/
theorem le_max_size_of_nth_lt (N : Nat) (h : ∀ i, i < N → Nat.nth Nat.Prime i < 2 ^ 64) :
    N ≤ VECTOR_MAX_SIZE := by
  have hc := count_prime_uint64
  unfold VECTOR_MAX_SIZE
  rcases Nat.eq_zero_or_pos N with h0 | hpos
  · omega
  · have hlt : N - 1 < Nat.count Nat.Prime (2 ^ 64) :=
      (Nat.lt_nth_iff_count_lt Nat.infinite_setOf_prime).mpr (h (N - 1) (by omega))
    omega

/-- While the `N` smallest primes are all below `2 ^ 64`, the returned vector
lists them in order. -/
theorem first_n_primes_spec (N : Nat) (h : ∀ i, i < N → Nat.nth Nat.Prime i < 2 ^ 64) :
    first_n_primes N = some ((List.range N).map (Nat.nth Nat.Prime)) := by
  obtain ⟨t, hr⟩ := range_for_exact N 0 2 [] [2] (by norm_num) Nat.prime_two
    (fun _ => Nat.nth_prime_zero_eq_two.symm) (fun j hj => h j (by omega))
  have hf : first_n_primes_fill N =
      some ([] ++ (List.range' 0 N).map (Nat.nth Nat.Prime), t) := by
    simp only [first_n_primes_fill, find_if_begin]; exact hr
  rw [(first_n_primes_of_le N (le_max_size_of_nth_lt N h) _ t hf).1]
  simp [List.range_eq_range']

/-- The list of the `N` smallest primes is strictly increasing. -/
theorem smallest_primes_pairwise (N : Nat) :
    ((List.range N).map (Nat.nth Nat.Prime)).Pairwise (· < ·) :=
  List.Pairwise.map _ (fun _ _ hab => (Nat.nth_lt_nth Nat.infinite_setOf_prime).mpr hab)
    (List.pairwise_lt_range N)

/-- A list of primes below `2 ^ 64` that is longer than the number of such
primes cannot be strictly increasing. -/
theorem not_pairwise_of_long (l : List Nat) (hlen : Nat.count Nat.Prime (2 ^ 64) < l.length)
    (hall : ∀ v ∈ l, Nat.Prime v ∧ v < 2 ^ 64) : ¬ l.Pairwise (· < ·) := by
  intro hs
  have hnd : l.Nodup := hs.imp (fun h => Nat.ne_of_lt h)
  have hsub : l.toFinset ⊆ Finset.filter Nat.Prime (Finset.range (2 ^ 64)) := by
    intro v hv
    rw [List.mem_toFinset] at hv
    rw [Finset.mem_filter, Finset.mem_range]
    exact ⟨(hall v hv).2, (hall v hv).1⟩
  have hcard := Finset.card_le_card hsub
  rw [List.toFinset_card_of_nodup hnd, ← Nat.count_eq_card_filter_range] at hcard
  omega

/-- The call with `N = 2 ^ 60 - 1` passes `reserve` and returns a vector of that
length holding primes below `2 ^ 64` only, more values than there are such
primes. -/
theorem first_n_primes_at_max_size :
    ∃ l, first_n_primes (2 ^ 60 - 1) = some l ∧
      Nat.count Nat.Prime (2 ^ 64) < l.length ∧ ∀ v ∈ l, Nat.Prime v ∧ v < 2 ^ 64 := by
  obtain ⟨o, t, hf, hlen, ho, _⟩ := first_n_primes_fill_total (2 ^ 60 - 1)
  refine ⟨o, (first_n_primes_of_le _ (le_of_eq rfl) o t hf).1, ?_, ho⟩
  rw [hlen]
  exact count_prime_uint64

/-! ## The claims -/

/-- C1. For every prime `n` below `2 ^ 64`, `is_prime(n)` returns `true`, the loop
test `d * d <= n` being evaluated modulo `2 ^ 64` (also for the primes above
`(2 ^ 32 - 1) ^ 2`, where `d * d` wraps around). -/
theorem is_prime_true_of_prime (n : Nat) (hn : n < 2 ^ 64) (hp : Nat.Prime n) :
    is_prime n = some true :=
  is_prime_fuel_of_prime n n hn le_rfl hp

/-- Instance of C1 at the prime `97` of the `static_assert` in `main`. -/
theorem is_prime_true_of_prime_witness :
    97 < 2 ^ 64 ∧ Nat.Prime 97 ∧ is_prime 97 = some true :=
  ⟨by norm_num, by norm_num, is_prime_true_of_prime 97 (by norm_num) (by norm_num)⟩

/-- C2. For every `n` below `2 ^ 64`, if `is_prime(n)` returns `true` then `n` is
prime: `n ≥ 2` and no `d` with `1 < d < n` divides `n`; equivalently,
`is_prime` returns `false` on `0`, `1` and every composite `n`. -/
theorem is_prime_sound (n : Nat) (hn : n < 2 ^ 64) :
    (is_prime n = some true → Nat.Prime n ∧ 2 ≤ n ∧ ∀ d, 1 < d → d < n → ¬ d ∣ n) ∧
      (¬ Nat.Prime n → is_prime n = some false) := by
  refine ⟨fun h => ?_, fun hnp => is_prime_fuel_of_not_prime n n hn le_rfl hnp⟩
  have hp : Nat.Prime n := by
    by_contra hnp
    rw [is_prime, is_prime_fuel_of_not_prime n n hn le_rfl hnp] at h
    simp at h
  refine ⟨hp, hp.two_le, fun d h1 h2 hd => ?_⟩
  rcases (Nat.dvd_prime hp).mp hd with h3 | h3 <;> omega

/-- Instances of C2 at `97`, on which the code answers `true`, and at the
composite `100` of the `static_assert` in `main`. -/
theorem is_prime_sound_witness :
    (97 < 2 ^ 64 ∧ is_prime 97 = some true ∧
      (Nat.Prime 97 ∧ 2 ≤ 97 ∧ ∀ d, 1 < d → d < 97 → ¬ d ∣ 97)) ∧
    (100 < 2 ^ 64 ∧ ¬ Nat.Prime 100 ∧ is_prime 100 = some false) :=
  ⟨⟨by norm_num, by decide, (is_prime_sound 97 (by norm_num)).1 (by decide)⟩,
    ⟨by norm_num, by norm_num, (is_prime_sound 100 (by norm_num)).2 (by norm_num)⟩⟩

/-- C3, as stated, fails for large `N` (each a `size_t`).  For `N = 2 ^ 60`,
above `max_size()`, `out.reserve(N)` throws `std::length_error` and no vector
is returned.  For `N = 2 ^ 60 - 1`, which `reserve` accepts, the vector returned
is not the list of the `N` smallest primes: there are fewer than `N` primes
below `2 ^ 64`, and the 64-bit candidate counter cannot go beyond them. -/
theorem first_n_primes_not_smallest_large :
    first_n_primes_run (2 ^ 60) = some (none, []) ∧
      first_n_primes (2 ^ 60) ≠ some ((List.range (2 ^ 60)).map (Nat.nth Nat.Prime)) ∧
      ∃ l, first_n_primes (2 ^ 60 - 1) = some l ∧
        l ≠ (List.range (2 ^ 60 - 1)).map (Nat.nth Nat.Prime) := by
  have hgt := first_n_primes_of_gt (2 ^ 60) (by unfold VECTOR_MAX_SIZE; norm_num)
  refine ⟨hgt.1, by rw [hgt.2.1]; simp, ?_⟩
  obtain ⟨l, hl, hlen, hall⟩ := first_n_primes_at_max_size
  refine ⟨l, hl, fun heq => ?_⟩
  refine not_pairwise_of_long l hlen hall ?_
  rw [heq]
  exact smallest_primes_pairwise _

/-- C3, amended. For every `N` whose `N` smallest primes are all below
`2 ^ 64`, `first_n_primes(N)` is exactly the list of the `N` smallest primes in
increasing order: its `i`-th element is the `i`-th prime. -/
theorem first_n_primes_eq_smallest (N : Nat)
    (h : ∀ i, i < N → Nat.nth Nat.Prime i < 2 ^ 64) :
    first_n_primes N = some ((List.range N).map (Nat.nth Nat.Prime)) :=
  first_n_primes_spec N h

/-- The fifteen smallest primes are below `2 ^ 64`. -/
theorem nth_prime_lt_of_lt_15 : ∀ i, i < 15 → Nat.nth Nat.Prime i < 2 ^ 64 := by
  intro i hi
  have h14 : Nat.nth Nat.Prime 14 = 47 := by
    have hc : Nat.count Nat.Prime 47 = 14 := by decide
    have := @Nat.nth_count Nat.Prime _ 47 (by norm_num)
    rwa [hc] at this
  have hle : Nat.nth Nat.Prime i ≤ Nat.nth Nat.Prime 14 :=
    (Nat.nth_le_nth Nat.infinite_setOf_prime).mpr (by omega)
  omega

/-- Instance of the amended C3 at `N = 15`, the call made by `main`. -/
theorem first_n_primes_eq_smallest_witness :
    (∀ i, i < 15 → Nat.nth Nat.Prime i < 2 ^ 64) ∧
      first_n_primes 15 = some ((List.range 15).map (Nat.nth Nat.Prime)) :=
  ⟨nth_prime_lt_of_lt_15, first_n_primes_eq_smallest 15 nth_prime_lt_of_lt_15⟩

/-- C4, as stated, fails: `first_n_primes(0)` evaluates the predicate on the
candidate `2`, and `first_n_primes(1)`, which returns `[2]`, evaluates it on
`2` and on `3`, a candidate beyond the first prime: building the begin
iterator searches the first hit, and every `++` of the counted iterator
searches the next hit before the count is looked at. -/
theorem first_n_primes_tested_beyond :
    first_n_primes_tested 0 = some [2] ∧
      first_n_primes 1 = some [2] ∧ first_n_primes_tested 1 = some [2, 3] := by
  decide

/-- C4, amended. For every `k`, computing `first_n_primes(k)` evaluates
`is_prime` only on candidates less than or equal to the `(k + 1)`-th prime
(`Nat.nth Nat.Prime k`, counting from zero); for `k = 0` the only candidate
tested is `2`. -/
theorem first_n_primes_tested_le (k : Nat) :
    ∃ t, first_n_primes_tested k = some t ∧ (∀ c ∈ t, c ≤ Nat.nth Nat.Prime k) ∧
      (k = 0 → t = [2]) := by
  have hk0 : ∀ t, first_n_primes_tested k = some t → k = 0 → t = [2] := by
    intro t ht hk
    subst hk
    have h0 : first_n_primes_tested 0 = some [2] := by decide
    rw [h0] at ht
    exact (Option.some.inj ht).symm
  rcases Nat.lt_or_ge VECTOR_MAX_SIZE k with hgt | hle
  · have hrun := (first_n_primes_of_gt k hgt).2.2
    exact ⟨[], hrun, fun c hc => by simp at hc, hk0 [] hrun⟩
  · rcases Nat.lt_or_ge (Nat.nth Nat.Prime k) (2 ^ 64) with hlt | hge
    · obtain ⟨o, t, hr, ht⟩ := range_for_tested_le k 0 [] [2] (by rw [Nat.zero_add]; exact hlt)
      rw [Nat.nth_prime_zero_eq_two] at hr
      have hf : first_n_primes_fill k = some (o, t) := by
        simp only [first_n_primes_fill, find_if_begin]; exact hr
      have hrun := (first_n_primes_of_le k hle o t hf).2
      refine ⟨t, hrun, ?_, hk0 t hrun⟩
      intro c hc
      rcases ht c hc with h | h
      · simp at h
        subst h
        have := Nat.add_two_le_nth_prime k
        omega
      · rw [Nat.zero_add] at h; exact h
    · obtain ⟨o, t, hf, _, _, ht⟩ := first_n_primes_fill_total k
      have hrun := (first_n_primes_of_le k hle o t hf).2
      refine ⟨t, hrun, ?_, hk0 t hrun⟩
      intro c hc
      have := ht c hc
      omega

/-- C5. For every `n` below `2 ^ 64` the evaluation of `is_prime(n)` terminates:
the loop, with `d * d` computed modulo `2 ^ 64`, is left after at most `n`
tests, and any larger bound on the number of tests gives the same result. -/
theorem is_prime_terminates (n : Nat) (hn : n < 2 ^ 64) :
    ∃ b, is_prime n = some b ∧ ∀ fuel, n ≤ fuel → is_prime_fuel fuel n = some b := by
  by_cases h1 : n < 2
  · exact ⟨false, by simp [is_prime, is_prime_fuel, h1], fun fuel _ => by simp [is_prime_fuel, h1]⟩
  · by_cases h2 : n % 2 = 0
    · exact ⟨n == 2, by simp [is_prime, is_prime_fuel, h1, h2],
        fun fuel _ => by simp [is_prime_fuel, h1, h2]⟩
    · obtain ⟨b, hb⟩ := is_prime_loop_total n hn ((n - 3) / 2) 3 n (by omega) (by omega) (by omega)
      refine ⟨b, ?_, fun fuel hf => ?_⟩
      · simp only [is_prime, is_prime_fuel, h1, h2, if_false]; exact hb
      · simp only [is_prime_fuel, h1, h2, if_false]
        exact is_prime_loop_mono n n fuel 3 b hf hb

/-- Instance of C5 at `2 ^ 64 - 59`, above `(2 ^ 32 - 1) ^ 2`. -/
theorem is_prime_terminates_witness :
    18446744073709551557 < 2 ^ 64 ∧
      ∃ b, is_prime 18446744073709551557 = some b ∧
        ∀ fuel, 18446744073709551557 ≤ fuel →
          is_prime_fuel fuel 18446744073709551557 = some b :=
  ⟨by norm_num, is_prime_terminates 18446744073709551557 (by norm_num)⟩

/-- C6, as stated, fails for large `k` (each a `size_t`).  For `k = 2 ^ 60 - 1`,
which `reserve` accepts, the sequence returned is not strictly increasing:
it holds more values than there are primes below `2 ^ 64`, since the 64-bit
candidate counter wraps around and the primes come again.  For `k = 2 ^ 60`,
`out.reserve(k)` throws and no sequence is returned at all. -/
theorem first_n_primes_not_increasing_large :
    (∃ l, first_n_primes (2 ^ 60 - 1) = some l ∧ ¬ l.Chain' (· < ·)) ∧
      first_n_primes (2 ^ 60) = none := by
  refine ⟨?_, (first_n_primes_of_gt (2 ^ 60) (by unfold VECTOR_MAX_SIZE; norm_num)).2.1⟩
  obtain ⟨l, hl, hlen, hall⟩ := first_n_primes_at_max_size
  exact ⟨l, hl, fun hc => not_pairwise_of_long l hlen hall (List.chain'_iff_pairwise.mp hc)⟩

/-- C6, amended. For every `k` whose `k` smallest primes are all below `2 ^ 64`,
the sequence returned by `first_n_primes(k)` is strictly increasing: each
element is strictly greater than the one before it. -/
theorem first_n_primes_increasing (k : Nat)
    (h : ∀ i, i < k → Nat.nth Nat.Prime i < 2 ^ 64) :
    ∃ l, first_n_primes k = some l ∧ l.Chain' (· < ·) :=
  ⟨_, first_n_primes_spec k h, (smallest_primes_pairwise k).chain'⟩

/-- Instance of the amended C6 at `k = 15`. -/
theorem first_n_primes_increasing_witness :
    (∀ i, i < 15 → Nat.nth Nat.Prime i < 2 ^ 64) ∧
      ∃ l, first_n_primes 15 = some l ∧ l.Chain' (· < ·) :=
  ⟨nth_prime_lt_of_lt_15, first_n_primes_increasing 15 nth_prime_lt_of_lt_15⟩

/-- C9. `first_n_primes(15)` returns exactly
`[2, 3, 5, 7, 11, 13, 17, 19, 23, 29, 31, 37, 41, 43, 47]`. -/
theorem first_n_primes_15 :
    first_n_primes 15 = some [2, 3, 5, 7, 11, 13, 17, 19, 23, 29, 31, 37, 41, 43, 47] := by
  decide

/-- C10. `first_n_primes(0)` returns the empty sequence. -/
theorem first_n_primes_zero : first_n_primes 0 = some [] := by
  decide

/-! ## The record of the loop of `is_prime` -/

/-- The instrumented loop computes the result of `is_prime_loop`. -/
theorem is_prime_loop_trace_fst (n : Nat) :
    ∀ (fuel d : Nat), (is_prime_loop_trace n fuel d).1 = is_prime_loop n fuel d := by
  intro fuel
  induction fuel with
  | zero => intro d; rfl
  | succ f ih =>
    intro d
    simp only [is_prime_loop_trace, is_prime_loop]
    split_ifs
    · rfl
    · rfl
    · exact ih _
    · rfl

/-- The instrumented function computes the result of `is_prime`. -/
theorem is_prime_trace_fst (n : Nat) : (is_prime_trace n).1 = is_prime n := by
  simp only [is_prime_trace, is_prime, is_prime_fuel]
  split_ifs
  · rfl
  · rfl
  · exact is_prime_loop_trace_fst n n 3

/-- Every value at which `n % d` is evaluated is a value at which the loop test
was evaluated. -/
theorem is_prime_loop_trace_divided_sub (n : Nat) :
    ∀ (fuel d x : Nat), x ∈ (is_prime_loop_trace n fuel d).2.2 →
      x ∈ (is_prime_loop_trace n fuel d).2.1 := by
  intro fuel
  induction fuel with
  | zero => intro d x hx; simp [is_prime_loop_trace] at hx
  | succ f ih =>
    intro d x hx
    simp only [is_prime_loop_trace] at hx ⊢
    split_ifs at hx ⊢
    · exact hx
    · exact hx
    · rcases List.mem_cons.mp hx with h | h
      · exact List.mem_cons.mpr (Or.inl h)
      · exact List.mem_cons.mpr (Or.inr (ih _ x h))
    · simp at hx

/-- Started at an odd `d` with `3 ≤ d ≤ n`, `n` odd, the loop only reaches odd
values between `3` and `n`, and these are `d, d + 2, d + 4, ...` as natural
numbers: the increment never wraps. -/
theorem is_prime_loop_trace_reached (n : Nat) (hn : n < 2 ^ 64) (hodd : n % 2 = 1) :
    ∀ (fuel d : Nat), d % 2 = 1 → 3 ≤ d → d ≤ n →
      (∀ x ∈ (is_prime_loop_trace n fuel d).2.1, 3 ≤ x ∧ x ≤ n ∧ x % 2 = 1) ∧
      (is_prime_loop_trace n fuel d).2.1 =
        List.range' d (is_prime_loop_trace n fuel d).2.1.length 2 := by
  intro fuel
  induction fuel with
  | zero => intro d _ _ _; simp [is_prime_loop_trace]
  | succ f ih =>
    intro d hd h3 hle
    have hd0 : d ≠ 0 := by omega
    simp only [is_prime_loop_trace, hd0, if_false]
    split_ifs with h1 h2
    · simp [List.range'_succ]; omega
    · have hne : d ≠ n := by
        intro h
        rw [h, Nat.mod_self] at h2
        exact h2 rfl
      have hlt : d + 2 ≤ n := by omega
      have hmod : (d + 2) % UINT64_MOD = d + 2 :=
        Nat.mod_eq_of_lt (by unfold UINT64_MOD; omega)
      rw [hmod]
      obtain ⟨ih1, ih2⟩ := ih (d + 2) (by omega) (by omega) hlt
      refine ⟨?_, ?_⟩
      · intro x hx
        rcases List.mem_cons.mp hx with h | h
        · subst h; exact ⟨h3, hle, hd⟩
        · exact ih1 x h
      · rw [List.length_cons, List.range'_succ, ← ih2]
    · simp [List.range'_succ]; omega

/-- When the wrapped loop test holds at every value from `d` to `e` and none of
the values below `e` divides `n`, the loop started at `d` evaluates `n % e`. -/
theorem is_prime_loop_trace_divides (n e : Nat) (he64 : e < 2 ^ 64)
    (htest : ∀ x, 0 < x → x ≤ e → (x * x) % UINT64_MOD ≤ n)
    (hnd : ∀ x, 1 < x → x < e → n % x ≠ 0) :
    ∀ (k d fuel : Nat), 1 < d → d + 2 * k = e → k < fuel →
      e ∈ (is_prime_loop_trace n fuel d).2.2 := by
  intro k
  induction k with
  | zero =>
    intro d fuel hd hde hf
    obtain ⟨g, rfl⟩ : ∃ g, fuel = g + 1 := ⟨fuel - 1, by omega⟩
    have hd2 : d = e := by omega
    subst hd2
    have h1 := htest d (by omega) le_rfl
    have hd0 : d ≠ 0 := by omega
    simp only [is_prime_loop_trace, h1, hd0, if_true, if_false]
    split_ifs <;> simp
  | succ k ih =>
    intro d fuel hd hde hf
    obtain ⟨g, rfl⟩ : ∃ g, fuel = g + 1 := ⟨fuel - 1, by omega⟩
    have h1 := htest d (by omega) (by omega)
    have hd0 : d ≠ 0 := by omega
    have h3 : n % d ≠ 0 := hnd d hd (by omega)
    have hmod : (d + 2) % UINT64_MOD = d + 2 := Nat.mod_eq_of_lt (by unfold UINT64_MOD; omega)
    simp only [is_prime_loop_trace, h1, hd0, h3, if_true, if_false, hmod]
    exact List.mem_cons.mpr (Or.inr (ih (d + 2) g (by omega) (by omega) (by omega)))

/-- The number `2 ^ 64 - 2 ^ 32 + 1` is prime (Lucas test with base `7`;
`2 ^ 64 - 2 ^ 32 = 2 ^ 32 * 3 * 5 * 17 * 257 * 65537`). -/
theorem prime_above_wrap : Nat.Prime 18446744069414584321 := by
  refine lucas_primality 18446744069414584321 (7 : ZMod 18446744069414584321) ?_ ?_
  · reduce_mod_char
  · intro q hq hdvd
    have hfac : (18446744069414584321 - 1 : ℕ) = 2 ^ 32 * 3 * 5 * 17 * 257 * 65537 := by norm_num
    have h65537 : Nat.Prime 65537 := by norm_num
    have h257 : Nat.Prime 257 := by norm_num
    have h17 : Nat.Prime 17 := by norm_num
    have hcases : q = 2 ∨ q = 3 ∨ q = 5 ∨ q = 17 ∨ q = 257 ∨ q = 65537 := by
      rw [hfac] at hdvd
      rcases (Nat.Prime.dvd_mul hq).mp hdvd with h | h
      · rcases (Nat.Prime.dvd_mul hq).mp h with h | h
        · rcases (Nat.Prime.dvd_mul hq).mp h with h | h
          · rcases (Nat.Prime.dvd_mul hq).mp h with h | h
            · rcases (Nat.Prime.dvd_mul hq).mp h with h | h
              · left; exact (Nat.prime_dvd_prime_iff_eq hq Nat.prime_two).mp (hq.dvd_of_dvd_pow h)
              · right; left; exact (Nat.prime_dvd_prime_iff_eq hq Nat.prime_three).mp h
            · right; right; left; exact (Nat.prime_dvd_prime_iff_eq hq Nat.prime_five).mp h
          · right; right; right; left; exact (Nat.prime_dvd_prime_iff_eq hq h17).mp h
        · right; right; right; right; left; exact (Nat.prime_dvd_prime_iff_eq hq h257).mp h
      · right; right; right; right; right; exact (Nat.prime_dvd_prime_iff_eq hq h65537).mp h
    rcases hcases with h | h | h | h | h | h <;> subst h
    · have h : (18446744069414584321 - 1) / 2 = 9223372034707292160 := by norm_num
      rw [h]; reduce_mod_char; decide
    · have h : (18446744069414584321 - 1) / 3 = 6148914689804861440 := by norm_num
      rw [h]; reduce_mod_char; decide
    · have h : (18446744069414584321 - 1) / 5 = 3689348813882916864 := by norm_num
      rw [h]; reduce_mod_char; decide
    · have h : (18446744069414584321 - 1) / 17 = 1085102592318504960 := by norm_num
      rw [h]; reduce_mod_char; decide
    · have h : (18446744069414584321 - 1) / 257 = 71777214277877760 := by norm_num
      rw [h]; reduce_mod_char; decide
    · have h : (18446744069414584321 - 1) / 65537 = 281470681743360 := by norm_num
      rw [h]; reduce_mod_char; decide

/-- For a prime `n` with `(2 ^ 32 - 1) ^ 2 ≤ n < 2 ^ 64` the loop evaluates
`n % d` at `d = 2 ^ 32 + 1`: the square of that candidate wraps to `2 ^ 33 + 1`,
which passes the loop test. -/
theorem is_prime_trace_divides_wrapped (n : Nat) (hp : Nat.Prime n)
    (hlo : (2 ^ 32 - 1) ^ 2 ≤ n) (hn : n < 2 ^ 64) :
    4294967297 ∈ (is_prime_trace n).2.2 := by
  have hlo2 : 18446744065119617025 ≤ n := by norm_num at hlo; exact hlo
  have hodd : n % 2 = 1 := by
    rcases hp.eq_two_or_odd with h | h
    · omega
    · exact h
  have h1 : ¬ n < 2 := by omega
  have h2 : ¬ n % 2 = 0 := by omega
  simp only [is_prime_trace, h1, h2, if_false]
  refine is_prime_loop_trace_divides n 4294967297 (by norm_num) ?_ ?_
    2147483647 3 n (by norm_num) (by norm_num) (by omega)
  · intro x hx0 hx
    rcases Nat.lt_or_ge x 4294967296 with hs | hs
    · have hle : x ≤ 4294967295 := by omega
      have hsq : x * x ≤ 4294967295 * 4294967295 := Nat.mul_le_mul hle hle
      have : x * x ≤ 18446744065119617025 := by norm_num at hsq; exact hsq
      exact le_trans (Nat.mod_le _ _) (by omega)
    · have hcase : x = 4294967296 ∨ x = 4294967297 := by omega
      rcases hcase with h | h
      · subst h; unfold UINT64_MOD; norm_num
      · subst h; unfold UINT64_MOD; norm_num; omega
  · intro x hx1 hx hmod
    have hdvd : x ∣ n := Nat.dvd_of_mod_eq_zero hmod
    rcases (Nat.dvd_prime hp).mp hdvd with h | h <;> omega

/-- Below `(2 ^ 32 - 1) ^ 2` the 64-bit loop and the unbounded loop coincide,
test by test, and no product `d * d` they evaluate reaches `2 ^ 64`. -/
theorem is_prime_loop_trace_eq_unbounded (n : Nat) (hn : n ≤ (2 ^ 32 - 1) ^ 2) :
    ∀ (fuel d : Nat), d % 2 = 1 → d ≤ 2 ^ 32 - 1 →
      is_prime_loop_trace n fuel d = is_prime_loop_trace_unbounded n fuel d ∧
      ∀ x ∈ (is_prime_loop_trace n fuel d).2.1, x * x < 2 ^ 64 := by
  have hn2 : n ≤ 18446744065119617025 := by norm_num at hn; exact hn
  intro fuel
  induction fuel with
  | zero => intro d _ _; simp [is_prime_loop_trace, is_prime_loop_trace_unbounded]
  | succ f ih =>
    intro d hd hle
    have hle2 : d ≤ 4294967295 := by norm_num at hle; exact hle
    have hsq : d * d ≤ 4294967295 * 4294967295 := Nat.mul_le_mul hle2 hle2
    have hsq3 : d * d < 18446744073709551616 := by norm_num at hsq; omega
    have hsq2 : d * d < 2 ^ 64 := by norm_num; exact hsq3
    have hmod : (d * d) % UINT64_MOD = d * d := Nat.mod_eq_of_lt (by unfold UINT64_MOD; exact hsq2)
    simp only [is_prime_loop_trace, is_prime_loop_trace_unbounded, hmod]
    split_ifs with h1 h2 h3
    · simp [hsq3]
    · simp [hsq3]
    · have hne : d ≠ 4294967295 := by
        intro h
        subst h
        have : n = 18446744065119617025 := by norm_num at h1; omega
        subst this
        norm_num at h3
      have hmod2 : (d + 2) % UINT64_MOD = d + 2 :=
        Nat.mod_eq_of_lt (by unfold UINT64_MOD; omega)
      rw [hmod2]
      obtain ⟨ih1, ih2⟩ := ih (d + 2) (by omega) (by norm_num; omega)
      refine ⟨by rw [ih1], ?_⟩
      intro x hx
      rcases List.mem_cons.mp hx with h | h
      · subst h; exact hsq2
      · exact ih2 x h
    · simp [hsq3]

/-! ## Prefixes of the result of `first_n_primes` -/

/-- The range-for loop only appends to `out`. -/
theorem range_for_prefix :
    ∀ (len cur : Nat) (out tested o t : List Nat),
      range_for len cur out tested = some (o, t) → out <+: o := by
  intro len
  induction len with
  | zero =>
    intro cur out tested o t h
    simp only [range_for, Option.some.injEq, Prod.mk.injEq] at h
    rw [h.1]
  | succ len ih =>
    intro cur out tested o t h
    simp only [range_for] at h
    cases hf : find_if UINT64_MOD ((cur + 1) % UINT64_MOD) with
    | none => rw [hf] at h; simp at h
    | some r =>
      rw [hf] at h
      exact (List.prefix_append out [cur]).trans (ih _ _ _ _ _ h)

/-- A loop of `a + b` iterations is a loop of `a` iterations followed by a loop
of `b` iterations from the state reached. -/
theorem range_for_split :
    ∀ (a b cur : Nat) (out tested : List Nat),
      ∃ cur2, range_for (a + b) cur out tested =
        (range_for a cur out tested).bind (fun r => range_for b cur2 r.1 r.2) := by
  intro a
  induction a with
  | zero =>
    intro b cur out tested
    exact ⟨cur, by simp [range_for]⟩
  | succ a ih =>
    intro b cur out tested
    have hab : a + 1 + b = (a + b) + 1 := by omega
    rw [hab]
    simp only [range_for]
    cases hf : find_if UINT64_MOD ((cur + 1) % UINT64_MOD) with
    | none => exact ⟨0, by simp⟩
    | some r => exact ih b r.1 (out ++ [cur]) (tested ++ r.2)

/-- After `reserve`, the vector filled for `m` is a prefix of the vector filled
for `m + b`. -/
theorem first_n_primes_fill_prefix (m b : Nat) :
    ∃ lm tm ln tn, first_n_primes_fill m = some (lm, tm) ∧
      first_n_primes_fill (m + b) = some (ln, tn) ∧ lm.length = m ∧ lm <+: ln := by
  obtain ⟨lm, tm, hm, hlen, _, _⟩ := first_n_primes_fill_total m
  obtain ⟨ln, tn, hn, _, _, _⟩ := first_n_primes_fill_total (m + b)
  refine ⟨lm, tm, ln, tn, hm, hn, hlen, ?_⟩
  simp only [first_n_primes_fill, find_if_begin] at hm hn
  obtain ⟨cur2, hsplit⟩ := range_for_split m b 2 [] [2]
  rw [hn, hm] at hsplit
  simp only [Option.some_bind] at hsplit
  exact range_for_prefix b cur2 lm tm ln tn hsplit.symm

/-- When `reserve` accepts `n`, the results for `m ≤ n` and for `n` are both
returned and the first is a prefix of the second. -/
theorem first_n_primes_prefix_of_le (m n : Nat) (h : m ≤ n) (hn : n ≤ VECTOR_MAX_SIZE) :
    ∃ lm ln, first_n_primes m = some lm ∧ first_n_primes n = some ln ∧
      lm.length = m ∧ lm <+: ln := by
  obtain ⟨lm, tm, ln, tn, hfm, hfn, hlen, hpre⟩ := first_n_primes_fill_prefix m (n - m)
  have hmn : m + (n - m) = n := by omega
  rw [hmn] at hfn
  exact ⟨lm, ln, (first_n_primes_of_le m (by omega) lm tm hfm).1,
    (first_n_primes_of_le n hn ln tn hfn).1, hlen, hpre⟩

/-! ## The claims, continued -/

/-- C11, as stated, fails: for `N = 2 ^ 60`, which is at least `1` and above
`max_size()`, `out.reserve(N)` throws `std::length_error`; no sequence is
returned, so there is no first element. -/
theorem first_n_primes_no_head_above_max_size :
    1 ≤ 2 ^ 60 ∧ first_n_primes (2 ^ 60) = none ∧
      ¬ ∃ l, first_n_primes (2 ^ 60) = some l ∧ l.head? = some 2 := by
  have hgt := first_n_primes_of_gt (2 ^ 60) (by unfold VECTOR_MAX_SIZE; norm_num)
  refine ⟨by norm_num, hgt.2.1, ?_⟩
  rintro ⟨l, hl, _⟩
  rw [hgt.2.1] at hl
  simp at hl

/-- C11, amended. For every `N` with `1 ≤ N ≤ max_size()` the first element of
`first_n_primes(N)` is `2`, the smallest prime; in particular
`first_n_primes(1)` returns `[2]`. -/
theorem first_n_primes_head (N : Nat) (hN : 1 ≤ N) (hmax : N ≤ VECTOR_MAX_SIZE) :
    (∃ l, first_n_primes N = some l ∧ l.head? = some 2) ∧ first_n_primes 1 = some [2] := by
  refine ⟨?_, by decide⟩
  obtain ⟨l1, ln, h1, hn, _, hpre⟩ := first_n_primes_prefix_of_le 1 N hN hmax
  have h1eq : first_n_primes 1 = some [2] := by decide
  rw [h1eq] at h1
  have hl1 : l1 = [2] := (Option.some.inj h1).symm
  subst hl1
  obtain ⟨rest, hrest⟩ := hpre
  exact ⟨ln, hn, by rw [← hrest]; rfl⟩

/-- Instance of the amended C11 at `N = 15`, the call made by `main`. -/
theorem first_n_primes_head_witness :
    1 ≤ 15 ∧ 15 ≤ VECTOR_MAX_SIZE ∧
      ((∃ l, first_n_primes 15 = some l ∧ l.head? = some 2) ∧
        first_n_primes 1 = some [2]) :=
  ⟨by norm_num, by decide, first_n_primes_head 15 (by norm_num) (by decide)⟩

/-- C12. For every `n < 2`, that is `n = 0` and `n = 1`, `is_prime(n)` returns
`false`. -/
theorem is_prime_lt_two (n : Nat) (h : n < 2) : is_prime n = some false := by
  simp [is_prime, is_prime_fuel, h]

/-- Instances of C12 at `0` and at `1`. -/
theorem is_prime_lt_two_witness :
    (0 < 2 ∧ is_prime 0 = some false) ∧ (1 < 2 ∧ is_prime 1 = some false) :=
  ⟨⟨by norm_num, is_prime_lt_two 0 (by norm_num)⟩, ⟨by norm_num, is_prime_lt_two 1 (by norm_num)⟩⟩

/-- C13. `is_prime(2)` returns `true`, and for every even `n` with
`2 < n < 2 ^ 64`, `is_prime(n)` returns `false`. -/
theorem is_prime_even (n : Nat) (h2 : 2 < n) (hn : n < 2 ^ 64) (he : n % 2 = 0) :
    is_prime 2 = some true ∧ is_prime n = some false := by
  refine ⟨by decide, ?_⟩
  have h1 : ¬ n < 2 := by omega
  have h3 : n ≠ 2 := by omega
  simp [is_prime, is_prime_fuel, h1, he, h3]

/-- Instance of C13 at `2 ^ 64 - 2`, the largest even 64-bit value. -/
theorem is_prime_even_witness :
    2 < 18446744073709551614 ∧ 18446744073709551614 < 2 ^ 64 ∧
      18446744073709551614 % 2 = 0 ∧
      (is_prime 2 = some true ∧ is_prime 18446744073709551614 = some false) :=
  ⟨by norm_num, by norm_num, by norm_num,
    is_prime_even 18446744073709551614 (by norm_num) (by norm_num) (by norm_num)⟩

/-- C14, at the failing input. For the prime `n = 2 ^ 64 - 2 ^ 32 + 1` the code
evaluates `n % d` at `d = 2 ^ 32 + 1`, a candidate whose true square is greater
than `n` (so `d` is above `floor(sqrt(n))`): its 64-bit square wraps to
`2 ^ 33 + 1`, which passes the loop test `d * d <= n`. -/
theorem is_prime_divides_above_sqrt :
    4294967297 ∈ (is_prime_trace 18446744069414584321).2.2 ∧
      18446744069414584321 < 4294967297 * 4294967297 ∧
      (4294967297 * 4294967297) % UINT64_MOD ≤ 18446744069414584321 :=
  ⟨is_prime_trace_divides_wrapped 18446744069414584321 prime_above_wrap
    (by norm_num) (by norm_num), by norm_num, by unfold UINT64_MOD; norm_num⟩

/-- C15. For every `n ≤ (2 ^ 32 - 1) ^ 2` no product `d * d` evaluated by
`is_prime(n)` exceeds `2 ^ 64 - 1`, and the 64-bit `is_prime` runs the same
iterations (same loop tests, same divisions) and returns the same result as
the trial division carried out over unbounded natural numbers. -/
theorem is_prime_eq_unbounded (n : Nat) (hn : n ≤ (2 ^ 32 - 1) ^ 2) :
    (∀ d ∈ (is_prime_trace n).2.1, d * d ≤ 2 ^ 64 - 1) ∧
      is_prime_trace n = is_prime_trace_unbounded n ∧
      is_prime n = (is_prime_trace_unbounded n).1 := by
  have hloop := is_prime_loop_trace_eq_unbounded n hn n 3 (by norm_num) (by norm_num)
  have heq : is_prime_trace n = is_prime_trace_unbounded n := by
    simp only [is_prime_trace, is_prime_trace_unbounded]
    split_ifs
    · rfl
    · rfl
    · exact hloop.1
  refine ⟨?_, heq, by rw [← heq, is_prime_trace_fst]⟩
  intro d hd
  simp only [is_prime_trace] at hd
  split_ifs at hd
  · simp at hd
  · simp at hd
  · have := hloop.2 d hd
    omega

/-- Instance of C15 at the bound `(2 ^ 32 - 1) ^ 2` itself. -/
theorem is_prime_eq_unbounded_witness :
    18446744065119617025 ≤ (2 ^ 32 - 1) ^ 2 ∧
      ((∀ d ∈ (is_prime_trace 18446744065119617025).2.1, d * d ≤ 2 ^ 64 - 1) ∧
        is_prime_trace 18446744065119617025 = is_prime_trace_unbounded 18446744065119617025 ∧
        is_prime 18446744065119617025 = (is_prime_trace_unbounded 18446744065119617025).1) :=
  ⟨by norm_num, is_prime_eq_unbounded 18446744065119617025 (by norm_num)⟩

/-- C16, as stated, fails: for `m = 1 ≤ n = 2 ^ 60`, `first_n_primes(1)` returns
`[2]` but `first_n_primes(2 ^ 60)` returns nothing, `out.reserve(n)` throwing
`std::length_error`; so `first_n_primes(m)` is not a prefix of a result for
`n`. -/
theorem first_n_primes_no_prefix_above_max_size :
    1 ≤ 2 ^ 60 ∧ first_n_primes 1 = some [2] ∧ first_n_primes (2 ^ 60) = none ∧
      ¬ ∃ lm ln, first_n_primes 1 = some lm ∧ first_n_primes (2 ^ 60) = some ln ∧
        lm <+: ln := by
  have hgt := first_n_primes_of_gt (2 ^ 60) (by unfold VECTOR_MAX_SIZE; norm_num)
  refine ⟨by norm_num, by decide, hgt.2.1, ?_⟩
  rintro ⟨lm, ln, _, hl, _⟩
  rw [hgt.2.1] at hl
  simp at hl

/-- C16, amended. For all `m ≤ n` with `n` not greater than `max_size()`,
`first_n_primes(m)` is a prefix of `first_n_primes(n)`: the first `m` elements
of `first_n_primes(n)` are exactly `first_n_primes(m)`. -/
theorem first_n_primes_prefix (m n : Nat) (h : m ≤ n) (hn : n ≤ VECTOR_MAX_SIZE) :
    ∃ lm ln, first_n_primes m = some lm ∧ first_n_primes n = some ln ∧
      lm <+: ln ∧ ln.take m = lm := by
  obtain ⟨lm, ln, hm, hln, hlen, hpre⟩ := first_n_primes_prefix_of_le m n h hn
  refine ⟨lm, ln, hm, hln, hpre, ?_⟩
  have := List.prefix_iff_eq_take.mp hpre
  rw [hlen] at this
  exact this.symm

/-- Instance of the amended C16 at `m = 15`, `n = 2 ^ 60 - 1`, the largest count
that `reserve` accepts. -/
theorem first_n_primes_prefix_witness :
    15 ≤ 2 ^ 60 - 1 ∧ 2 ^ 60 - 1 ≤ VECTOR_MAX_SIZE ∧
      ∃ lm ln, first_n_primes 15 = some lm ∧ first_n_primes (2 ^ 60 - 1) = some ln ∧
        lm <+: ln ∧ ln.take 15 = lm :=
  ⟨by norm_num, le_of_eq rfl, first_n_primes_prefix 15 (2 ^ 60 - 1) (by norm_num) (le_of_eq rfl)⟩

/-- C17. For every `n` below `2 ^ 64`, every value `d` reached by the loop of
`is_prime(n)` is odd and satisfies `3 ≤ d ≤ n`; the loop returns a result, so
`n % d` is never a division by zero, and the values reached are
`3, 5, 7, ...` as natural numbers, so the increment `d += 2` never wraps
around `2 ^ 64`. -/
theorem is_prime_reached_bounds (n : Nat) (hn : n < 2 ^ 64) :
    (∀ d ∈ (is_prime_trace n).2.1, 3 ≤ d ∧ d ≤ n ∧ d % 2 = 1) ∧
      (∀ d ∈ (is_prime_trace n).2.2, d ≠ 0) ∧
      (∃ b, (is_prime_trace n).1 = some b) ∧
      (is_prime_trace n).2.1 = List.range' 3 (is_prime_trace n).2.1.length 2 := by
  have hres : ∃ b, (is_prime_trace n).1 = some b := by
    rw [is_prime_trace_fst, is_prime_eq n hn]
    exact ⟨_, rfl⟩
  by_cases h1 : n < 2
  · refine ⟨?_, ?_, hres, ?_⟩ <;> simp [is_prime_trace, h1]
  · by_cases h2 : n % 2 = 0
    · refine ⟨?_, ?_, hres, ?_⟩ <;> simp [is_prime_trace, h1, h2]
    · obtain ⟨hr1, hr2⟩ := is_prime_loop_trace_reached n hn (by omega) n 3
        (by norm_num) (by norm_num) (by omega)
      have htr : is_prime_trace n = is_prime_loop_trace n n 3 := by
        simp only [is_prime_trace, h1, h2, if_false]
      rw [htr]
      refine ⟨hr1, ?_, by rw [← htr]; exact hres, hr2⟩
      intro d hd
      have := (hr1 d (is_prime_loop_trace_divided_sub n n 3 d hd)).1
      omega

/-- Instance of C17 at the prime `2 ^ 64 - 2 ^ 32 + 1`, above
`(2 ^ 32 - 1) ^ 2`. -/
theorem is_prime_reached_bounds_witness :
    18446744069414584321 < 2 ^ 64 ∧
      ((∀ d ∈ (is_prime_trace 18446744069414584321).2.1,
          3 ≤ d ∧ d ≤ 18446744069414584321 ∧ d % 2 = 1) ∧
        (∀ d ∈ (is_prime_trace 18446744069414584321).2.2, d ≠ 0) ∧
        (∃ b, (is_prime_trace 18446744069414584321).1 = some b) ∧
        (is_prime_trace 18446744069414584321).2.1 =
          List.range' 3 (is_prime_trace 18446744069414584321).2.1.length 2) :=
  ⟨by norm_num, is_prime_reached_bounds 18446744069414584321 (by norm_num)⟩

end TradingGraph
